import Mathlib

set_option maxHeartbeats 1000000

/- Verification development for the circuit-continuity engine of pico_sim
   (src/pico-simulator/src/App.js).  The definitions below are a shallow
   embedding of the continuity evaluation block (App.js lines 423-548) and of
   the grid-addressing helpers (lines 97-119).  JavaScript `Set`s are embedded
   as lists with first-occurrence insertion; membership is the only observable
   used by the program.  The string hole ids ("PL+-3", "L-25", ...) are embedded
   as an inductive type whose constructors are in bijection with the strings the
   source produces for natural-number rows. -/

section GraphDefs

variable {α : Type} [DecidableEq α]

/-- Insert an element only if absent, preserving first-occurrence order
    (mirrors JavaScript `Set.add` / first-write-wins object keys). -/
def insertOnce (l : List α) (a : α) : List α :=
  if a ∈ l then l else l ++ [a]

/-- Neighbours of `a` in an undirected edge list.  Mirrors `connAdj` built by
    `addConn` (App.js lines 433-436), which pushes both directions. -/
def adjacent (E : List (α × α)) (a : α) : List α :=
  E.flatMap (fun e => (if e.1 = a then [e.2] else []) ++ (if e.2 = a then [e.1] else []))

/-- All endpoints occurring in the edge list, deduplicated. -/
def nodesOf (E : List (α × α)) : List α :=
  (E.flatMap (fun e => [e.1, e.2])).dedup

/-- Number of graph nodes not yet visited; used as the BFS fuel bound. -/
def unvisitedCount (E : List (α × α)) (v : List α) : Nat :=
  ((nodesOf E).filter (fun n => decide (n ∉ v))).length

/-- One scan over a neighbour list: every node not yet visited is appended to
    both the visited set and the queue.  Mirrors the inner `forEach` of the two
    BFS loops (App.js lines 505-508 and 518-521). -/
def scanNbrs (visited queue : List α) : List α → List α × List α
  | [] => (visited, queue)
  | n :: ns =>
      if n ∈ visited then scanNbrs visited queue ns
      else scanNbrs (visited ++ [n]) (queue ++ [n]) ns

/-- Fuel-indexed BFS loop, mirroring `while(queue.length > 0)` (App.js lines
    502-509).  The fuel is a technical bound; `bfs` below supplies enough fuel
    for the loop to run to completion, matching the always-terminating source. -/
def bfsAux (E : List (α × α)) : Nat → List α → List α → List α
  | 0, _, visited => visited
  | _ + 1, [], visited => visited
  | fuel + 1, c :: rest, visited =>
      bfsAux E fuel (scanNbrs visited rest (adjacent E c)).2
        (scanNbrs visited rest (adjacent E c)).1

/-- BFS from an initial queue and visited set, with sufficient fuel. -/
def bfs (E : List (α × α)) (queue visited : List α) : List α :=
  bfsAux E (unvisitedCount E visited + queue.length) queue visited

/-- Reachability closure of a seed set: the seeds are marked visited and
    enqueued, then the loop runs (App.js lines 499-509 / 512-522). -/
def reachSet (E : List (α × α)) (seeds : List α) : List α :=
  bfs E seeds seeds

/-- Consecutive pairs of a list.  Mirrors the chaining loop
    `for(let i=0; i<list.length-1; i++) addConn(list[i], list[i+1])`
    (App.js lines 477-481). -/
def consecPairs : List α → List (α × α)
  | a :: b :: rest => (a, b) :: consecPairs (b :: rest)
  | _ => []

/-- Undirected reachability over an edge list: the reflexive-transitive closure
    of the symmetrised edge relation. -/
inductive Reach (E : List (α × α)) : α → α → Prop
  | refl (a : α) : Reach E a a
  | tail {a b c : α} : Reach E a b → ((b, c) ∈ E ∨ (c, b) ∈ E) → Reach E a c

end GraphDefs

/-- Side of the central gap of the main grid. -/
inductive Side where
  | L
  | R
deriving DecidableEq

/-- Node identity of a breadboard hole.  In bijection with the strings produced
    by `getHoleId` (App.js lines 97-105): `PLp row` is "PL+-row", `PLm row` is
    "PL--row", `PRp row` is "PR+-row", `PRm row` is "PR--row", and
    `main side row` is "L-row" / "R-row". -/
inductive HoleId where
  | PLp (row : Nat)
  | PLm (row : Nat)
  | PRp (row : Nat)
  | PRm (row : Nat)
  | main (side : Side) (row : Nat)
deriving DecidableEq

/-- Mirrors `getHoleId(row, col)` (App.js lines 97-105).  Note: there is no
    validation; any column other than the four rail columns falls through to
    the `col <= 5 ? 'L' : 'R'` classification. -/
def getHoleId (row : Nat) (col : Int) : HoleId :=
  if col = 0 then .PLp row
  else if col = -1 then .PLm row
  else if col = 11 then .PRp row
  else if col = 12 then .PRm row
  else if col ≤ 5 then .main .L row
  else .main .R row

/-- Electrical group key of a hole.  In bijection with the strings produced by
    `getGroupKey` (App.js lines 457-461): for a rail hole id the part before the
    first '-' is kept ("PL+", "PL", "PR+", "PR"), collapsing a whole rail
    column; a main hole id is kept whole ("L-25"). -/
inductive GroupKey where
  | PLpos
  | PLneg
  | PRpos
  | PRneg
  | mainG (side : Side) (row : Nat)
deriving DecidableEq

/-- Mirrors `getGroupKey(holeId)` (App.js lines 457-461). -/
def getGroupKey : HoleId → GroupKey
  | .PLp _ => .PLpos
  | .PLm _ => .PLneg
  | .PRp _ => .PRpos
  | .PRm _ => .PRneg
  | .main side row => .mainG side row

/-- Mirrors the `leftMap` object literal of `getGpioFromHole` (App.js line 113). -/
def leftGpioMap (row : Nat) : Option Nat :=
  if row = 1 then some 0 else if row = 2 then some 1 else if row = 4 then some 2
  else if row = 5 then some 3 else if row = 6 then some 4 else if row = 7 then some 5
  else if row = 9 then some 6 else if row = 10 then some 7 else if row = 11 then some 8
  else if row = 12 then some 9 else if row = 14 then some 10 else if row = 15 then some 11
  else if row = 16 then some 12 else if row = 17 then some 13 else if row = 19 then some 14
  else if row = 20 then some 15 else none

/-- Mirrors the `rightMap` object literal of `getGpioFromHole` (App.js line 116). -/
def rightGpioMap (row : Nat) : Option Nat :=
  if row = 20 then some 16 else if row = 19 then some 17 else if row = 17 then some 18
  else if row = 16 then some 19 else if row = 15 then some 20 else if row = 14 then some 21
  else if row = 12 then some 22 else if row = 10 then some 26 else if row = 9 then some 27
  else if row = 7 then some 28 else none

/-- Mirrors `getGpioFromHole(row, col)` (App.js lines 110-119). -/
def getGpioFromHole (row : Nat) (col : Int) : Option Nat :=
  if col < 1 ∨ col > 10 then none
  else if col ≤ 5 then leftGpioMap row
  else rightGpioMap row

/-- Mirrors `GND_ROWS` (App.js line 108). -/
def GND_ROWS : List Nat := [3, 8, 13, 18, 23, 28]

/-- The ground-row predicate, `GND_ROWS.includes(row)` (App.js line 495). -/
def isGroundRow (row : Nat) : Bool :=
  decide (row ∈ GND_ROWS)

/-- A two-terminal component.  Only the fields read by the continuity
    evaluation are embedded; display metadata (color, name, ohms, scale, level)
    is never read by the evaluation block. -/
structure Comp where
  id : Nat
  sR : Nat
  sC : Int
  eR : Nat
  eC : Int
deriving DecidableEq

/-- Hole id of a component's start terminal, `getHoleId(item.sR, item.sC)`. -/
def startHole (c : Comp) : HoleId := getHoleId c.sR c.sC

/-- Hole id of a component's end terminal, `getHoleId(item.eR, item.eC)`. -/
def endHole (c : Comp) : HoleId := getHoleId c.eR c.eC

/-- One edge per component between its terminal hole ids, mirroring
    `registerComp` (App.js lines 439-444). -/
def compEdges (comps : List Comp) : List (HoleId × HoleId) :=
  comps.map (fun c => (startHole c, endHole c))

/-- The set of occupied holes, mirroring the `usedHoles` Set (App.js lines
    464-468): terminals of all components, in insertion order. -/
def usedHoles (comps : List Comp) : List HoleId :=
  comps.foldl (fun acc c => insertOnce (insertOnce acc (startHole c)) (endHole c)) []

/-- The group keys present among the occupied holes, in first-occurrence order,
    mirroring the keys of the `groups` object (App.js lines 471-476). -/
def groupKeys (used : List HoleId) : List GroupKey :=
  used.foldl (fun acc h => insertOnce acc (getGroupKey h)) []

/-- The occupied holes of one group, in insertion order, mirroring
    `groups[key]` (App.js lines 471-476). -/
def groupList (used : List HoleId) (k : GroupKey) : List HoleId :=
  used.filter (fun h => decide (getGroupKey h = k))

/-- The path-chaining edges: within each group the occupied holes are linked
    consecutively (App.js lines 477-481). -/
def chainEdges (used : List HoleId) : List (HoleId × HoleId) :=
  (groupKeys used).flatMap (fun k => consecPairs (groupList used k))

/-- The full edge list of one evaluation: component edges registered in the
    order wires, resistors, leds (App.js line 444), then the chaining edges over
    the occupied holes collected in the order wires, leds, resistors
    (App.js line 465). -/
def builtEdges (wires leds resistors : List Comp) : List (HoleId × HoleId) :=
  compEdges (wires ++ resistors ++ leds) ++ chainEdges (usedHoles (wires ++ leds ++ resistors))

/-- The source test of the seed derivation (App.js lines 487-494): a rail hole
    is skipped; a main hole's row is looked up through the representative
    column (1 on the left, 6 on the right) and the pin must be driven high. -/
def sourcePred (ps : Nat → Bool) : HoleId → Bool
  | .main side row =>
      match getGpioFromHole row (if side = Side.L then 1 else 6) with
      | some pin => ps pin
      | none => false
  | _ => false

/-- The sink test of the seed derivation (App.js lines 487-495): a rail hole is
    skipped (the `startsWith('P')` early return precedes the GND check); a main
    hole is a sink iff its row is a ground row. -/
def sinkPred : HoleId → Bool
  | .main _ row => isGroundRow row
  | _ => false

/-- The powered seeds (`sources`, App.js lines 485-496). -/
def sourcesOf (comps : List Comp) (ps : Nat → Bool) : List HoleId :=
  (usedHoles comps).filter (sourcePred ps)

/-- The grounded seeds (`sinks`, App.js lines 485-496). -/
def sinksOf (comps : List Comp) : List HoleId :=
  (usedHoles comps).filter sinkPred

/-- The powered reachable set (`powered`, App.js lines 499-509). -/
def poweredOf (wires leds resistors : List Comp) (ps : Nat → Bool) : List HoleId :=
  reachSet (builtEdges wires leds resistors) (sourcesOf (wires ++ leds ++ resistors) ps)

/-- The grounded reachable set (`grounded`, App.js lines 512-522). -/
def groundedOf (wires leds resistors : List Comp) : List HoleId :=
  reachSet (builtEdges wires leds resistors) (sinksOf (wires ++ leds ++ resistors))

/-- The activation test `check` (App.js lines 526-539): a component is active
    iff one of its terminals is in both the powered and the grounded set. -/
def checkB (powered grounded : List HoleId) (c : Comp) : Bool :=
  (decide (startHole c ∈ powered) && decide (startHole c ∈ grounded)) ||
  (decide (endHole c ∈ powered) && decide (endHole c ∈ grounded))

/-- The set of active component ids (`activeSet`, App.js lines 525-540), as the
    ids of the components passing `check` in the order wires, leds, resistors. -/
def activeIdsOf (wires leds resistors : List Comp) (ps : Nat → Bool) : List Nat :=
  ((wires ++ leds ++ resistors).filter
      (checkB (poweredOf wires leds resistors ps) (groundedOf wires leds resistors))).map Comp.id

/-- The visualization-eligible nodes (`validNodes`, App.js lines 543-544):
    the powered nodes that are also grounded. -/
def activeNodesOf (wires leds resistors : List Comp) (ps : Nat → Bool) : List HoleId :=
  (poweredOf wires leds resistors ps).filter
    (fun h => decide (h ∈ groundedOf wires leds resistors))

/-- The result of one continuity evaluation (App.js line 546). -/
structure EvalResult where
  activeIds : List Nat
  activeNodes : List HoleId
deriving DecidableEq

/-- One full continuity evaluation: the `useMemo` body (App.js lines 423-548)
    as a pure function of the three component lists and the pin-state vector
    (a total map from pin number to `driven high`; an absent entry of the JS
    object is `false`). -/
def evaluate (wires leds resistors : List Comp) (ps : Nat → Bool) : EvalResult :=
  ⟨activeIdsOf wires leds resistors ps, activeNodesOf wires leds resistors ps⟩

/-- The reference graph of the specification: every pair of occupied holes with
    the same group key is directly connected. -/
def cliqueEdges (used : List HoleId) : List (HoleId × HoleId) :=
  used.flatMap (fun a =>
    used.filterMap (fun b => if getGroupKey a = getGroupKey b then some (a, b) else none))

/-- The reference edge list: component edges plus the full clique on each
    electrical equivalence class of occupied holes. -/
def refEdges (wires leds resistors : List Comp) : List (HoleId × HoleId) :=
  compEdges (wires ++ resistors ++ leds) ++ cliqueEdges (usedHoles (wires ++ leds ++ resistors))

/-- Whether a column is one of the four power-rail columns. -/
def isRailCol (c : Int) : Bool :=
  decide (c = 0) || decide (c = -1) || decide (c = 11) || decide (c = 12)

/-- The side classification of a main-grid column, `col <= 5 ? 'L' : 'R'`. -/
def sideOfCol (c : Int) : Side :=
  if c ≤ 5 then .L else .R

/-- Modelled from the spec: two valid coordinates are electrically the same
    connector segment iff they lie in the same power-rail column (a rail column
    is a single conductor over all rows), or they are both main-grid holes on
    the same side of the gap in the same row.  This physical equivalence is
    stated in spec sections 3 and 4.1 and is not itself a function of the
    source. -/
def sameSegment (r1 : Nat) (c1 : Int) (r2 : Nat) (c2 : Int) : Bool :=
  if isRailCol c1 || isRailCol c2 then decide (c1 = c2)
  else decide (sideOfCol c1 = sideOfCol c2) && decide (r1 = r2)

section GraphLemmas

variable {α : Type} [DecidableEq α]

theorem mem_insertOnce {l : List α} {a x : α} : x ∈ insertOnce l a ↔ x ∈ l ∨ x = a := by
  unfold insertOnce
  split
  · next h => exact ⟨Or.inl, fun hx => hx.elim id (fun hxa => hxa ▸ h)⟩
  · simp [List.mem_append]

theorem mem_adjacent {E : List (α × α)} {a b : α} :
    b ∈ adjacent E a ↔ (a, b) ∈ E ∨ (b, a) ∈ E := by
  unfold adjacent
  rw [List.mem_flatMap]
  constructor
  · rintro ⟨e, he, hb⟩
    rw [List.mem_append] at hb
    rcases hb with hb | hb
    · split at hb
      · next h1 =>
        rw [List.mem_singleton] at hb
        subst h1
        subst hb
        left
        simpa using he
      · cases hb
    · split at hb
      · next h2 =>
        rw [List.mem_singleton] at hb
        subst h2
        subst hb
        right
        simpa using he
      · cases hb
  · rintro (hab | hba)
    · exact ⟨(a, b), hab, by simp⟩
    · exact ⟨(b, a), hba, by simp⟩

theorem adjacent_mem_nodesOf {E : List (α × α)} {a b : α} (h : b ∈ adjacent E a) :
    b ∈ nodesOf E := by
  rw [mem_adjacent] at h
  unfold nodesOf
  rw [List.mem_dedup, List.mem_flatMap]
  rcases h with h | h
  · exact ⟨(a, b), h, by simp⟩
  · exact ⟨(b, a), h, by simp⟩

theorem filter_snoc_length {l v : List α} {n : α}
    (hnd : l.Nodup) (hn : n ∈ l) (hnv : n ∉ v) :
    (l.filter (fun x => decide (x ∉ v ++ [n]))).length + 1
      = (l.filter (fun x => decide (x ∉ v))).length := by
  induction l with
  | nil => cases hn
  | cons x xs ih =>
    rw [List.nodup_cons] at hnd
    rcases List.mem_cons.mp hn with heq | hx
    · subst heq
      have h1 : (decide (n ∉ v ++ [n]) : Bool) = false := by simp
      have h2 : (decide (n ∉ v) : Bool) = true := by simpa using hnv
      rw [List.filter_cons_of_neg (by rw [h1]; exact Bool.false_ne_true),
        List.filter_cons_of_pos (by rw [h2])]
      rw [List.length_cons]
      have hcongr : xs.filter (fun y => decide (y ∉ v ++ [n]))
          = xs.filter (fun y => decide (y ∉ v)) := by
        apply List.filter_congr
        intro y hy
        have hyn : y ≠ n := fun h => hnd.1 (h ▸ hy)
        simp [List.mem_append, hyn]
      rw [hcongr]
    · have hxn : x ≠ n := fun h => hnd.1 (h ▸ hx)
      have heq : (decide (x ∉ v ++ [n]) : Bool) = decide (x ∉ v) := by
        simp [List.mem_append, hxn]
      by_cases hxv : x ∉ v
      · rw [List.filter_cons_of_pos (by rw [heq]; simpa using hxv),
          List.filter_cons_of_pos (by simpa using hxv)]
        have := ih hnd.2 hx
        simp only [List.length_cons]
        omega
      · rw [List.filter_cons_of_neg (by rw [heq]; simpa using hxv),
          List.filter_cons_of_neg (by simpa using hxv)]
        exact ih hnd.2 hx

theorem unvisitedCount_snoc {E : List (α × α)} {v : List α} {n : α}
    (hn : n ∈ nodesOf E) (hnv : n ∉ v) :
    unvisitedCount E (v ++ [n]) + 1 = unvisitedCount E v := by
  unfold unvisitedCount nodesOf at *
  exact filter_snoc_length (List.nodup_dedup _) hn hnv

theorem scanNbrs_measure {E : List (α × α)} :
    ∀ (ns visited queue : List α), (∀ n ∈ ns, n ∈ nodesOf E) →
      unvisitedCount E (scanNbrs visited queue ns).1 + (scanNbrs visited queue ns).2.length
        ≤ unvisitedCount E visited + queue.length := by
  intro ns
  induction ns with
  | nil => intro v q _; simp [scanNbrs]
  | cons n ns ih =>
    intro v q h
    simp only [scanNbrs]
    split
    · exact ih v q (fun m hm => h m (List.mem_cons_of_mem _ hm))
    · next hnv =>
      have h1 := ih (v ++ [n]) (q ++ [n]) (fun m hm => h m (List.mem_cons_of_mem _ hm))
      have h2 := unvisitedCount_snoc (h n (List.mem_cons_self n ns)) hnv
      simp only [List.length_append, List.length_singleton] at h1
      omega

theorem scanNbrs_visited_subset {x : α} :
    ∀ (ns v q : List α), x ∈ v → x ∈ (scanNbrs v q ns).1 := by
  intro ns
  induction ns with
  | nil => intro v q h; exact h
  | cons n ns ih =>
    intro v q h
    simp only [scanNbrs]
    split
    · exact ih v q h
    · exact ih _ _ (List.mem_append_left _ h)

theorem scanNbrs_queue_subset {x : α} :
    ∀ (ns v q : List α), x ∈ q → x ∈ (scanNbrs v q ns).2 := by
  intro ns
  induction ns with
  | nil => intro v q h; exact h
  | cons n ns ih =>
    intro v q h
    simp only [scanNbrs]
    split
    · exact ih v q h
    · exact ih _ _ (List.mem_append_left _ h)

theorem scanNbrs_visited_cases {x : α} :
    ∀ (ns v q : List α), x ∈ (scanNbrs v q ns).1 → x ∈ v ∨ x ∈ ns := by
  intro ns
  induction ns with
  | nil => intro v q h; exact Or.inl h
  | cons n ns ih =>
    intro v q h
    simp only [scanNbrs] at h
    split at h
    · rcases ih v q h with h | h
      · exact Or.inl h
      · exact Or.inr (List.mem_cons_of_mem _ h)
    · rcases ih _ _ h with h | h
      · rcases List.mem_append.mp h with h | h
        · exact Or.inl h
        · exact Or.inr (List.mem_cons.mpr (Or.inl (List.mem_singleton.mp h)))
      · exact Or.inr (List.mem_cons_of_mem _ h)

theorem scanNbrs_queue_cases {x : α} :
    ∀ (ns v q : List α), x ∈ (scanNbrs v q ns).2 → x ∈ q ∨ x ∈ ns := by
  intro ns
  induction ns with
  | nil => intro v q h; exact Or.inl h
  | cons n ns ih =>
    intro v q h
    simp only [scanNbrs] at h
    split at h
    · rcases ih v q h with h | h
      · exact Or.inl h
      · exact Or.inr (List.mem_cons_of_mem _ h)
    · rcases ih _ _ h with h | h
      · rcases List.mem_append.mp h with h | h
        · exact Or.inl h
        · exact Or.inr (List.mem_cons.mpr (Or.inl (List.mem_singleton.mp h)))
      · exact Or.inr (List.mem_cons_of_mem _ h)

theorem scanNbrs_scanned_mem {n : α} :
    ∀ (ns v q : List α), n ∈ ns → n ∈ (scanNbrs v q ns).1 := by
  intro ns
  induction ns with
  | nil => intro v q h; cases h
  | cons m ms ih =>
    intro v q h
    simp only [scanNbrs]
    rcases List.mem_cons.mp h with rfl | h
    · split
      · next hmv => exact scanNbrs_visited_subset _ _ _ hmv
      · exact scanNbrs_visited_subset _ _ _ (List.mem_append_right _ (List.mem_singleton.mpr rfl))
    · split
      · exact ih _ _ h
      · exact ih _ _ h

theorem scanNbrs_visited_or_queued {x : α} :
    ∀ (ns v q : List α), x ∈ (scanNbrs v q ns).1 → x ∈ v ∨ x ∈ (scanNbrs v q ns).2 := by
  intro ns
  induction ns with
  | nil => intro v q h; exact Or.inl h
  | cons n ns ih =>
    intro v q h
    simp only [scanNbrs] at h ⊢
    split at h
    · next hnv =>
      rw [if_pos hnv]
      exact ih v q h
    · next hnv =>
      rw [if_neg hnv]
      rcases ih _ _ h with h | h
      · rcases List.mem_append.mp h with h | h
        · exact Or.inl h
        · exact Or.inr (scanNbrs_queue_subset _ _ _ (List.mem_append_right _ h))
      · exact Or.inr h

end GraphLemmas

section BfsLemmas

variable {α : Type} [DecidableEq α]

theorem bfsAux_nil_queue {E : List (α × α)} (f : Nat) (v : List α) :
    bfsAux E f [] v = v := by
  cases f <;> rfl

theorem bfsAux_grow {E : List (α × α)} {x : α} :
    ∀ (f : Nat) (q v : List α), x ∈ v → x ∈ bfsAux E f q v := by
  intro f
  induction f with
  | zero => intro q v h; exact h
  | succ f ih =>
    intro q v h
    cases q with
    | nil => exact h
    | cons c rest =>
      simp only [bfsAux]
      exact ih _ _ (scanNbrs_visited_subset _ _ _ h)

theorem bfsAux_sound {E : List (α × α)} (P : α → Prop)
    (hstep : ∀ a b, P a → b ∈ adjacent E a → P b) :
    ∀ (f : Nat) (q v : List α), (∀ y ∈ v, P y) → (∀ y ∈ q, P y) →
      ∀ x ∈ bfsAux E f q v, P x := by
  intro f
  induction f with
  | zero => intro q v hv _ x hx; exact hv x hx
  | succ f ih =>
    intro q v hv hq x hx
    cases q with
    | nil => exact hv x hx
    | cons c rest =>
      simp only [bfsAux] at hx
      refine ih _ _ ?_ ?_ x hx
      · intro y hy
        rcases scanNbrs_visited_cases _ _ _ hy with h | h
        · exact hv y h
        · exact hstep c y (hq c (List.mem_cons_self c rest)) h
      · intro y hy
        rcases scanNbrs_queue_cases _ _ _ hy with h | h
        · exact hq y (List.mem_cons_of_mem _ h)
        · exact hstep c y (hq c (List.mem_cons_self c rest)) h

theorem bfsAux_closed {E : List (α × α)} :
    ∀ (f : Nat) (q v : List α),
      unvisitedCount E v + q.length ≤ f →
      (∀ y ∈ q, y ∈ v) →
      (∀ a ∈ v, ∀ b ∈ adjacent E a, b ∈ v ∨ a ∈ q) →
      ∀ a ∈ bfsAux E f q v, ∀ b ∈ adjacent E a, b ∈ bfsAux E f q v := by
  intro f
  induction f with
  | zero =>
    intro q v hf _ hinv a ha b hb
    have hq : q = [] := List.length_eq_zero.mp (by omega)
    subst hq
    rcases hinv a ha b hb with h | h
    · exact h
    · cases h
  | succ f ih =>
    intro q v hf hqv hinv a ha b hb
    cases q with
    | nil =>
      rcases hinv a ha b hb with h | h
      · exact h
      · cases h
    | cons c rest =>
      simp only [bfsAux] at ha ⊢
      have hmeas := scanNbrs_measure (adjacent E c) v rest
        (fun n hn => adjacent_mem_nodesOf hn)
      have hq2 : ∀ y ∈ (scanNbrs v rest (adjacent E c)).2,
          y ∈ (scanNbrs v rest (adjacent E c)).1 := by
        intro y hy
        rcases scanNbrs_queue_cases _ _ _ hy with h | h
        · exact scanNbrs_visited_subset _ _ _ (hqv y (List.mem_cons_of_mem _ h))
        · exact scanNbrs_scanned_mem _ _ _ h
      have hinv2 : ∀ p ∈ (scanNbrs v rest (adjacent E c)).1,
          ∀ b2 ∈ adjacent E p,
            b2 ∈ (scanNbrs v rest (adjacent E c)).1 ∨ p ∈ (scanNbrs v rest (adjacent E c)).2 := by
        intro p hp b2 hb2
        rcases scanNbrs_visited_or_queued _ _ _ hp with hpv | hpq
        · rcases hinv p hpv b2 hb2 with h | h
          · exact Or.inl (scanNbrs_visited_subset _ _ _ h)
          · rcases List.mem_cons.mp h with heq | hrest
            · subst heq
              exact Or.inl (scanNbrs_scanned_mem _ _ _ hb2)
            · exact Or.inr (scanNbrs_queue_subset _ _ _ hrest)
        · exact Or.inr hpq
      refine ih _ _ ?_ hq2 hinv2 a ha b hb
      simp only [List.length_cons] at hf
      omega

theorem mem_reachSet {E : List (α × α)} {seeds : List α} {x : α} :
    x ∈ reachSet E seeds ↔ ∃ s ∈ seeds, Reach E s x := by
  constructor
  · intro hx
    exact bfsAux_sound (fun y => ∃ s ∈ seeds, Reach E s y)
      (fun a b hP hadj =>
        match hP with
        | ⟨s, hs, hr⟩ => ⟨s, hs, hr.tail (mem_adjacent.mp hadj)⟩)
      _ _ _ (fun y hy => ⟨y, hy, Reach.refl y⟩) (fun y hy => ⟨y, hy, Reach.refl y⟩) x hx
  · rintro ⟨s, hs, hr⟩
    induction hr with
    | refl => exact bfsAux_grow _ _ _ hs
    | tail hab hedge ih =>
      exact bfsAux_closed _ _ _ (le_refl _) (fun y hy => hy)
        (fun p hp b hb => Or.inr hp) _ ih _ (mem_adjacent.mpr hedge)

theorem reach_iff_mem_reachSet {E : List (α × α)} {a b : α} :
    Reach E a b ↔ b ∈ reachSet E [a] := by
  rw [mem_reachSet]
  constructor
  · intro h; exact ⟨a, List.mem_singleton.mpr rfl, h⟩
  · rintro ⟨s, hs, hr⟩
    rw [List.mem_singleton] at hs
    subst hs
    exact hr

end BfsLemmas

section ReachLemmas

variable {α : Type} [DecidableEq α]

theorem Reach.trans {E : List (α × α)} {a b c : α}
    (h1 : Reach E a b) (h2 : Reach E b c) : Reach E a c := by
  induction h2 with
  | refl => exact h1
  | tail _ hedge ih => exact ih.tail hedge

theorem Reach.single {E : List (α × α)} {a b : α}
    (h : (a, b) ∈ E ∨ (b, a) ∈ E) : Reach E a b :=
  (Reach.refl a).tail h

theorem Reach.symm {E : List (α × α)} {a b : α} (h : Reach E a b) : Reach E b a := by
  induction h with
  | refl => exact Reach.refl _
  | tail _ hedge ih => exact Reach.trans (Reach.single hedge.symm) ih

theorem Reach.mono_edges {E F : List (α × α)}
    (h : ∀ p q : α, (p, q) ∈ E → Reach F p q) {a b : α}
    (hr : Reach E a b) : Reach F a b := by
  induction hr with
  | refl => exact Reach.refl _
  | tail _ hedge ih =>
    rcases hedge with he | he
    · exact ih.trans (h _ _ he)
    · exact ih.trans (h _ _ he).symm

theorem consecPairs_mem {x y : α} :
    ∀ {l : List α}, (x, y) ∈ consecPairs l → x ∈ l ∧ y ∈ l := by
  intro l
  induction l with
  | nil => intro h; cases h
  | cons a t ih =>
    cases t with
    | nil => intro h; cases h
    | cons b r =>
      intro h
      rw [consecPairs] at h
      rcases List.mem_cons.mp h with heq | h2
      · rw [Prod.mk.injEq] at heq
        obtain ⟨rfl, rfl⟩ := heq
        exact ⟨List.mem_cons_self _ _, List.mem_cons_of_mem _ (List.mem_cons_self _ _)⟩
      · have hm := ih h2
        exact ⟨List.mem_cons_of_mem _ hm.1, List.mem_cons_of_mem _ hm.2⟩

theorem consecPairs_reach {E : List (α × α)} :
    ∀ (l : List α), (∀ e ∈ consecPairs l, e ∈ E) →
      ∀ x ∈ l, ∀ y ∈ l, Reach E x y := by
  intro l
  induction l with
  | nil => intro _ x hx; cases hx
  | cons a t ih =>
    cases t with
    | nil =>
      intro _ x hx y hy
      rw [List.mem_singleton] at hx hy
      rw [hx, hy]
      exact Reach.refl a
    | cons b r =>
      intro hE x hx y hy
      have hab : Reach E a b :=
        Reach.single (Or.inl (hE (a, b) (by rw [consecPairs]; exact List.mem_cons_self _ _)))
      have hsub : ∀ e ∈ consecPairs (b :: r), e ∈ E := fun e he =>
        hE e (by rw [consecPairs]; exact List.mem_cons_of_mem _ he)
      have ihr := ih hsub
      have haz : ∀ z ∈ b :: r, Reach E a z := fun z hz =>
        hab.trans (ihr b (List.mem_cons_self _ _) z hz)
      rcases List.mem_cons.mp hx with heq1 | hx2
      · rcases List.mem_cons.mp hy with heq2 | hy2
        · rw [heq1, heq2]; exact Reach.refl a
        · rw [heq1]; exact haz y hy2
      · rcases List.mem_cons.mp hy with heq2 | hy2
        · rw [heq2]; exact (haz x hx2).symm
        · exact ihr x hx2 y hy2

end ReachLemmas

section DomainLemmas

theorem mem_usedHoles {comps : List Comp} {h : HoleId} :
    h ∈ usedHoles comps ↔ ∃ c ∈ comps, h = startHole c ∨ h = endHole c := by
  have key : ∀ (l : List Comp) (init : List HoleId),
      h ∈ l.foldl (fun acc c => insertOnce (insertOnce acc (startHole c)) (endHole c)) init
        ↔ h ∈ init ∨ ∃ c ∈ l, h = startHole c ∨ h = endHole c := by
    intro l
    induction l with
    | nil => intro init; simp
    | cons c t ih =>
      intro init
      simp only [List.foldl_cons]
      rw [ih, mem_insertOnce, mem_insertOnce]
      constructor
      · rintro (((hi | hs) | he) | ⟨d, hd, hor⟩)
        · exact Or.inl hi
        · exact Or.inr ⟨c, List.mem_cons_self _ _, Or.inl hs⟩
        · exact Or.inr ⟨c, List.mem_cons_self _ _, Or.inr he⟩
        · exact Or.inr ⟨d, List.mem_cons_of_mem _ hd, hor⟩
      · rintro (hi | ⟨d, hd, hor⟩)
        · exact Or.inl (Or.inl (Or.inl hi))
        · rcases List.mem_cons.mp hd with heq | hdt
          · subst heq
            rcases hor with hs | he
            · exact Or.inl (Or.inl (Or.inr hs))
            · exact Or.inl (Or.inr he)
          · exact Or.inr ⟨d, hdt, hor⟩
  simpa using key comps []

theorem mem_groupKeys {used : List HoleId} {k : GroupKey} :
    k ∈ groupKeys used ↔ ∃ h ∈ used, getGroupKey h = k := by
  have key : ∀ (l : List HoleId) (init : List GroupKey),
      k ∈ l.foldl (fun acc h => insertOnce acc (getGroupKey h)) init
        ↔ k ∈ init ∨ ∃ h ∈ l, getGroupKey h = k := by
    intro l
    induction l with
    | nil => intro init; simp
    | cons h t ih =>
      intro init
      simp only [List.foldl_cons]
      rw [ih, mem_insertOnce]
      constructor
      · rintro ((hi | hk) | ⟨g, hg, hgk⟩)
        · exact Or.inl hi
        · exact Or.inr ⟨h, List.mem_cons_self _ _, hk.symm⟩
        · exact Or.inr ⟨g, List.mem_cons_of_mem _ hg, hgk⟩
      · rintro (hi | ⟨g, hg, hgk⟩)
        · exact Or.inl (Or.inl hi)
        · rcases List.mem_cons.mp hg with heq | hgt
          · subst heq
            exact Or.inl (Or.inr hgk.symm)
          · exact Or.inr ⟨g, hgt, hgk⟩
  simpa using key used []

theorem mem_compEdges {comps : List Comp} {e : HoleId × HoleId} :
    e ∈ compEdges comps ↔ ∃ c ∈ comps, e = (startHole c, endHole c) := by
  unfold compEdges
  rw [List.mem_map]
  constructor
  · rintro ⟨c, hc, heq⟩
    exact ⟨c, hc, heq.symm⟩
  · rintro ⟨c, hc, heq⟩
    exact ⟨c, hc, heq.symm⟩

theorem mem_cliqueEdges {used : List HoleId} {a b : HoleId} :
    (a, b) ∈ cliqueEdges used ↔ a ∈ used ∧ b ∈ used ∧ getGroupKey a = getGroupKey b := by
  unfold cliqueEdges
  rw [List.mem_flatMap]
  constructor
  · rintro ⟨x, hx, hmem⟩
    rw [List.mem_filterMap] at hmem
    obtain ⟨y, hy, hif⟩ := hmem
    split at hif
    · next hkey =>
      rw [Option.some.injEq, Prod.mk.injEq] at hif
      obtain ⟨rfl, rfl⟩ := hif
      exact ⟨hx, hy, hkey⟩
    · cases hif
  · rintro ⟨ha, hb, hk⟩
    refine ⟨a, ha, List.mem_filterMap.mpr ⟨b, hb, ?_⟩⟩
    rw [if_pos hk]

theorem chainEdges_subset_clique {used : List HoleId} {e : HoleId × HoleId}
    (h : e ∈ chainEdges used) : e ∈ cliqueEdges used := by
  unfold chainEdges at h
  rw [List.mem_flatMap] at h
  obtain ⟨k, _, hpair⟩ := h
  obtain ⟨x, y⟩ := e
  have hm := consecPairs_mem hpair
  have hx := hm.1
  have hy := hm.2
  rw [groupList, List.mem_filter] at hx hy
  rw [mem_cliqueEdges]
  refine ⟨hx.1, hy.1, ?_⟩
  have h1 := of_decide_eq_true hx.2
  have h2 := of_decide_eq_true hy.2
  rw [h1, h2]

theorem cliqueEdge_reach_chain {used : List HoleId} {a b : HoleId}
    (h : (a, b) ∈ cliqueEdges used) : Reach (chainEdges used) a b := by
  rw [mem_cliqueEdges] at h
  obtain ⟨ha, hb, hk⟩ := h
  have hka : a ∈ groupList used (getGroupKey a) := by
    rw [groupList, List.mem_filter]
    exact ⟨ha, by simp⟩
  have hkb : b ∈ groupList used (getGroupKey a) := by
    rw [groupList, List.mem_filter]
    exact ⟨hb, decide_eq_true hk.symm⟩
  have hmemk : getGroupKey a ∈ groupKeys used := mem_groupKeys.mpr ⟨a, ha, rfl⟩
  refine consecPairs_reach (groupList used (getGroupKey a)) ?_ a hka b hkb
  intro e he
  unfold chainEdges
  rw [List.mem_flatMap]
  exact ⟨getGroupKey a, hmemk, he⟩

theorem reach_built_iff_ref {w l r : List Comp} {a b : HoleId} :
    Reach (builtEdges w l r) a b ↔ Reach (refEdges w l r) a b := by
  constructor
  · apply Reach.mono_edges
    intro p q hpq
    apply Reach.single
    left
    unfold builtEdges at hpq
    unfold refEdges
    rw [List.mem_append] at hpq ⊢
    rcases hpq with h | h
    · exact Or.inl h
    · exact Or.inr (chainEdges_subset_clique h)
  · apply Reach.mono_edges
    intro p q hpq
    unfold refEdges at hpq
    rw [List.mem_append] at hpq
    rcases hpq with h | h
    · refine Reach.single (Or.inl ?_)
      unfold builtEdges
      rw [List.mem_append]
      exact Or.inl h
    · refine Reach.mono_edges ?_ (cliqueEdge_reach_chain h)
      intro p2 q2 hpq2
      refine Reach.single (Or.inl ?_)
      unfold builtEdges
      rw [List.mem_append]
      exact Or.inr hpq2

theorem mem_poweredOf {w l r : List Comp} {ps : Nat → Bool} {x : HoleId} :
    x ∈ poweredOf w l r ps ↔
      ∃ s ∈ sourcesOf (w ++ l ++ r) ps, Reach (builtEdges w l r) s x := by
  unfold poweredOf
  exact mem_reachSet

theorem mem_groundedOf {w l r : List Comp} {x : HoleId} :
    x ∈ groundedOf w l r ↔
      ∃ s ∈ sinksOf (w ++ l ++ r), Reach (builtEdges w l r) s x := by
  unfold groundedOf
  exact mem_reachSet

theorem mem_activeNodesOf {w l r : List Comp} {ps : Nat → Bool} {x : HoleId} :
    x ∈ (evaluate w l r ps).activeNodes ↔
      x ∈ poweredOf w l r ps ∧ x ∈ groundedOf w l r := by
  show x ∈ activeNodesOf w l r ps ↔ _
  unfold activeNodesOf
  rw [List.mem_filter]
  simp only [decide_eq_true_eq]

theorem used_mono {c1 c2 : List Comp} (hsub : ∀ c ∈ c1, c ∈ c2) {h : HoleId}
    (hm : h ∈ usedHoles c1) : h ∈ usedHoles c2 := by
  rw [mem_usedHoles] at hm ⊢
  obtain ⟨c, hc, hor⟩ := hm
  exact ⟨c, hsub c hc, hor⟩

theorem refEdges_mono {w l r : List Comp} {nw : Comp} {e : HoleId × HoleId}
    (he : e ∈ refEdges w l r) : e ∈ refEdges (w ++ [nw]) l r := by
  have hsub : ∀ c ∈ w ++ l ++ r, c ∈ (w ++ [nw]) ++ l ++ r := by
    intro c hc
    simp only [List.mem_append] at hc ⊢
    tauto
  unfold refEdges at he ⊢
  rw [List.mem_append] at he ⊢
  rcases he with h | h
  · left
    rw [mem_compEdges] at h ⊢
    obtain ⟨c, hc, rfl⟩ := h
    refine ⟨c, ?_, rfl⟩
    simp only [List.mem_append] at hc ⊢
    tauto
  · right
    obtain ⟨x, y⟩ := e
    rw [mem_cliqueEdges] at h ⊢
    exact ⟨used_mono hsub h.1, used_mono hsub h.2.1, h.2.2⟩

theorem sourcesOf_mono {c1 c2 : List Comp} {ps : Nat → Bool}
    (hsub : ∀ c ∈ c1, c ∈ c2) {h : HoleId}
    (hm : h ∈ sourcesOf c1 ps) : h ∈ sourcesOf c2 ps := by
  rw [sourcesOf, List.mem_filter] at hm ⊢
  exact ⟨used_mono hsub hm.1, hm.2⟩

theorem sinksOf_mono {c1 c2 : List Comp}
    (hsub : ∀ c ∈ c1, c ∈ c2) {h : HoleId}
    (hm : h ∈ sinksOf c1) : h ∈ sinksOf c2 := by
  rw [sinksOf, List.mem_filter] at hm ⊢
  exact ⟨used_mono hsub hm.1, hm.2⟩

end DomainLemmas

/-- C2: for every component list, the graph built by chaining each group's
    occupied holes into a path has exactly the same connected components -
    and hence the same reachability closures from any seed set - as the
    reference graph connecting every pair of group-equivalent occupied holes
    directly. -/
theorem c2_path_chain_equals_clique (wires leds resistors : List Comp) :
    (∀ a b : HoleId,
        Reach (builtEdges wires leds resistors) a b ↔
          Reach (refEdges wires leds resistors) a b) ∧
    (∀ (seeds : List HoleId) (x : HoleId),
        x ∈ reachSet (builtEdges wires leds resistors) seeds ↔
          x ∈ reachSet (refEdges wires leds resistors) seeds) := by
  refine ⟨fun a b => reach_built_iff_ref, fun seeds x => ?_⟩
  rw [mem_reachSet, mem_reachSet]
  constructor
  · rintro ⟨s, hs, hr⟩
    exact ⟨s, hs, reach_built_iff_ref.mp hr⟩
  · rintro ⟨s, hs, hr⟩
    exact ⟨s, hs, reach_built_iff_ref.mpr hr⟩

/-- C5 counterexample: an occupied power-rail coordinate whose row is a ground
    row (row 3, rail column 0) is not in the grounded seed set, because the
    seed derivation skips every rail hole before the ground-row check. -/
theorem c5_counterexample :
    getHoleId 3 0 ∈ usedHoles [⟨1, 3, 0, 3, 0⟩] ∧
    isGroundRow 3 = true ∧
    getHoleId 3 0 ∉ sinksOf [⟨1, 3, 0, 3, 0⟩] := by
  decide

/-- C5 amended: the grounded seed set contains exactly the occupied main-grid
    (non-rail) node identities whose row is a ground row; occupied rail
    coordinates are never grounded seeds, even at a ground row. -/
theorem c5_amended_sinks_are_main_ground (comps : List Comp) (h : HoleId) :
    h ∈ sinksOf comps ↔
      h ∈ usedHoles comps ∧
        ∃ side row, h = HoleId.main side row ∧ isGroundRow row = true := by
  rw [sinksOf, List.mem_filter]
  constructor
  · rintro ⟨hu, hp⟩
    refine ⟨hu, ?_⟩
    cases h with
    | main side row => exact ⟨side, row, rfl, hp⟩
    | PLp row => simp [sinkPred] at hp
    | PLm row => simp [sinkPred] at hp
    | PRp row => simp [sinkPred] at hp
    | PRm row => simp [sinkPred] at hp
  · rintro ⟨hu, side, row, rfl, hg⟩
    exact ⟨hu, hg⟩

/-- C8: if the pin-state vector maps every pin to false (in particular if the
    JS object is empty, since an absent entry reads as false), then no
    component is active, regardless of grounding. -/
theorem c8_all_low_no_active (wires leds resistors : List Comp) (ps : Nat → Bool)
    (hps : ∀ p, ps p = false) :
    (evaluate wires leds resistors ps).activeIds = [] := by
  have hsp : ∀ h : HoleId, sourcePred ps h = false := by
    intro h
    cases h with
    | main side row =>
      cases hgp : getGpioFromHole row (if side = Side.L then 1 else 6) with
      | some pin => simp [sourcePred, hgp, hps]
      | none => simp [sourcePred, hgp]
    | PLp row => rfl
    | PLm row => rfl
    | PRp row => rfl
    | PRm row => rfl
  have hsrc : sourcesOf (wires ++ leds ++ resistors) ps = [] := by
    unfold sourcesOf
    refine List.filter_eq_nil_iff.mpr (fun h _ => ?_)
    rw [hsp h]
    exact Bool.false_ne_true
  have hpow : poweredOf wires leds resistors ps = [] := by
    unfold poweredOf reachSet bfs
    rw [hsrc]
    exact bfsAux_nil_queue _ _
  show activeIdsOf wires leds resistors ps = []
  unfold activeIdsOf
  rw [hpow]
  have hnone : ∀ c ∈ wires ++ leds ++ resistors,
      ¬ (checkB [] (groundedOf wires leds resistors) c = true) := by
    intro c _
    simp [checkB]
  rw [List.filter_eq_nil_iff.mpr hnone, List.map_nil]

/-- C8 witness: a circuit whose components touch ground rows, under the
    all-false pin-state vector, has no active components. -/
theorem c8_witness :
    (evaluate [⟨1, 1, 1, 3, 1⟩] [⟨2, 8, 6, 13, 6⟩] [] (fun _ => false)).activeIds = [] :=
  c8_all_low_no_active [⟨1, 1, 1, 3, 1⟩] [⟨2, 8, 6, 13, 6⟩] [] (fun _ => false)
    (fun _ => rfl)

/-- C9: the evaluation is a deterministic pure function of the component lists
    and the pin-state vector: identical inputs yield identical activeIds and
    activeNodes.  In this embedding the evaluation is a function of exactly
    these inputs, so no hidden state can influence the result. -/
theorem c9_pure_deterministic (w1 w2 l1 l2 r1 r2 : List Comp) (ps1 ps2 : Nat → Bool)
    (hw : w1 = w2) (hl : l1 = l2) (hr : r1 = r2) (hps : ps1 = ps2) :
    (evaluate w1 l1 r1 ps1).activeIds = (evaluate w2 l2 r2 ps2).activeIds ∧
    (evaluate w1 l1 r1 ps1).activeNodes = (evaluate w2 l2 r2 ps2).activeNodes := by
  subst hw
  subst hl
  subst hr
  subst hps
  exact ⟨rfl, rfl⟩

/-- C9 witness: two evaluations of the repository's initial circuit under the
    same pin-state vector coincide. -/
theorem c9_witness :
    (evaluate [⟨1, 20, 2, 25, 2⟩, ⟨2, 28, 10, 18, 10⟩] [⟨1, 25, 7, 28, 7⟩]
        [⟨1, 25, 3, 25, 6⟩] (fun p => decide (p = 15))).activeIds =
      (evaluate [⟨1, 20, 2, 25, 2⟩, ⟨2, 28, 10, 18, 10⟩] [⟨1, 25, 7, 28, 7⟩]
        [⟨1, 25, 3, 25, 6⟩] (fun p => decide (p = 15))).activeIds ∧
    (evaluate [⟨1, 20, 2, 25, 2⟩, ⟨2, 28, 10, 18, 10⟩] [⟨1, 25, 7, 28, 7⟩]
        [⟨1, 25, 3, 25, 6⟩] (fun p => decide (p = 15))).activeNodes =
      (evaluate [⟨1, 20, 2, 25, 2⟩, ⟨2, 28, 10, 18, 10⟩] [⟨1, 25, 7, 28, 7⟩]
        [⟨1, 25, 3, 25, 6⟩] (fun p => decide (p = 15))).activeNodes :=
  c9_pure_deterministic _ _ _ _ _ _ _ _ rfl rfl rfl rfl

theorem leftGpioMap_none_of_gt20 {row : Nat} (h : 20 < row) : leftGpioMap row = none := by
  unfold leftGpioMap
  iterate 16 rw [if_neg (by omega)]

theorem rightGpioMap_none_of_gt20 {row : Nat} (h : 20 < row) : rightGpioMap row = none := by
  unfold rightGpioMap
  iterate 10 rw [if_neg (by omega)]

/-- C10: isGroundRow holds exactly for rows 3, 8, 13, 18, 23, 28; the pin
    lookup yields none for every row above 20 in every column; and an occupied
    main-grid hole in row 23 (or 28) is nevertheless a grounded seed. -/
theorem c10_ground_rows_beyond_pins :
    (∀ row : Nat, isGroundRow row = true ↔
        (row = 3 ∨ row = 8 ∨ row = 13 ∨ row = 18 ∨ row = 23 ∨ row = 28)) ∧
    (∀ (row : Nat) (col : Int), 20 < row → getGpioFromHole row col = none) ∧
    getHoleId 23 1 ∈ sinksOf [⟨1, 23, 1, 23, 2⟩] ∧
    getHoleId 28 6 ∈ sinksOf [⟨2, 28, 6, 28, 7⟩] := by
  refine ⟨?_, ?_, by decide, by decide⟩
  · intro row
    simp [isGroundRow, GND_ROWS]
  · intro row col hrow
    unfold getGpioFromHole
    split_ifs <;>
      first
        | rfl
        | exact leftGpioMap_none_of_gt20 hrow
        | exact rightGpioMap_none_of_gt20 hrow

/-- C10 witness: instantiating the row-above-20 pin lookup at rows 23 and 28. -/
theorem c10_witness :
    (20 < 23 ∧ getGpioFromHole 23 1 = none) ∧ (20 < 28 ∧ getGpioFromHole 28 6 = none) :=
  ⟨⟨by decide, c10_ground_rows_beyond_pins.2.1 23 1 (by decide)⟩,
   ⟨by decide, c10_ground_rows_beyond_pins.2.1 28 6 (by decide)⟩⟩

/-- C4 counterexample: column 13 lies outside the valid column set, yet grid
    addressing does not fail: it silently classifies (1, 13) as the very same
    node identity as the valid coordinate (1, 6), and the pin lookup silently
    returns none rather than an error. -/
theorem c4_counterexample :
    ¬ ((-1 : Int) ≤ 13 ∧ (13 : Int) ≤ 12) ∧
    getHoleId 1 13 = getHoleId 1 6 ∧
    getGpioFromHole 1 13 = none := by
  decide

/-- C4 amended: grid addressing performs no validation and never fails; a
    coordinate whose column lies outside the valid set {-1, ..., 12} is
    silently classified as a main-grid identity, identical to the identity of
    a valid coordinate (column 1 on the left, 6 on the right), and the pin
    lookup returns none, not an error. -/
theorem c4_amended_silent_classification (row : Nat) (col : Int)
    (h : col < -1 ∨ 12 < col) :
    getHoleId row col = getHoleId row (if col ≤ 5 then 1 else 6) ∧
    getGpioFromHole row col = none := by
  have h0 : ¬ (col = 0) := by omega
  have h1 : ¬ (col = -1) := by omega
  have h11 : ¬ (col = 11) := by omega
  have h12 : ¬ (col = 12) := by omega
  constructor
  · by_cases hc5 : col ≤ 5
    · rw [if_pos hc5]
      unfold getHoleId
      rw [if_neg h0, if_neg h1, if_neg h11, if_neg h12, if_pos hc5]
      simp
    · rw [if_neg hc5]
      unfold getHoleId
      rw [if_neg h0, if_neg h1, if_neg h11, if_neg h12, if_neg hc5]
      simp
  · unfold getGpioFromHole
    rw [if_pos]
    omega

/-- C4 amended witness: the out-of-range column 13 at row 7. -/
theorem c4_amended_witness :
    ((13 : Int) < -1 ∨ (12 : Int) < 13) ∧
    getHoleId 7 13 = getHoleId 7 (if (13 : Int) ≤ 5 then 1 else 6) ∧
    getGpioFromHole 7 13 = none :=
  ⟨by decide,
   (c4_amended_silent_classification 7 13 (by decide)).1,
   (c4_amended_silent_classification 7 13 (by decide)).2⟩

/-- C1: a component is classified active iff at least one of its two terminal
    node identities belongs to both the powered and the grounded reachable set
    (one terminal suffices; no powered/grounded pairing of the two terminals is
    required).  The id-distinctness hypothesis reflects the data-model
    invariant that component ids are unique. -/
theorem c1_active_iff_terminal_in_both (wires leds resistors : List Comp)
    (ps : Nat → Bool) (c : Comp)
    (hc : c ∈ wires ++ leds ++ resistors)
    (hids : ((wires ++ leds ++ resistors).map Comp.id).Nodup) :
    c.id ∈ (evaluate wires leds resistors ps).activeIds ↔
      ((startHole c ∈ poweredOf wires leds resistors ps ∧
          startHole c ∈ groundedOf wires leds resistors) ∨
       (endHole c ∈ poweredOf wires leds resistors ps ∧
          endHole c ∈ groundedOf wires leds resistors)) := by
  have hcheck : ∀ d : Comp,
      checkB (poweredOf wires leds resistors ps) (groundedOf wires leds resistors) d = true ↔
        ((startHole d ∈ poweredOf wires leds resistors ps ∧
            startHole d ∈ groundedOf wires leds resistors) ∨
         (endHole d ∈ poweredOf wires leds resistors ps ∧
            endHole d ∈ groundedOf wires leds resistors)) := by
    intro d
    simp [checkB]
  constructor
  · intro hmem
    have hmem2 : c.id ∈ activeIdsOf wires leds resistors ps := hmem
    unfold activeIdsOf at hmem2
    rw [List.mem_map] at hmem2
    obtain ⟨d, hd, hdid⟩ := hmem2
    rw [List.mem_filter] at hd
    have hdc : d = c := List.inj_on_of_nodup_map hids hd.1 hc hdid
    rw [← hdc]
    exact (hcheck d).mp hd.2
  · intro hcond
    show c.id ∈ activeIdsOf wires leds resistors ps
    unfold activeIdsOf
    rw [List.mem_map]
    exact ⟨c, List.mem_filter.mpr ⟨hc, (hcheck c).mpr hcond⟩, rfl⟩

/-- C1 witness: the wire from pin row 1 (GPIO 0, driven) to ground row 3 in
    column 1, alone on the board. -/
theorem c1_witness :
    (⟨1, 1, 1, 3, 1⟩ : Comp) ∈ [(⟨1, 1, 1, 3, 1⟩ : Comp)] ++ [] ++ [] ∧
    ((([(⟨1, 1, 1, 3, 1⟩ : Comp)] ++ [] ++ []).map Comp.id).Nodup) ∧
    ((⟨1, 1, 1, 3, 1⟩ : Comp).id ∈
        (evaluate [⟨1, 1, 1, 3, 1⟩] [] [] (fun p => decide (p = 0))).activeIds ↔
      ((startHole ⟨1, 1, 1, 3, 1⟩ ∈ poweredOf [⟨1, 1, 1, 3, 1⟩] [] [] (fun p => decide (p = 0)) ∧
          startHole ⟨1, 1, 1, 3, 1⟩ ∈ groundedOf [⟨1, 1, 1, 3, 1⟩] [] []) ∨
       (endHole ⟨1, 1, 1, 3, 1⟩ ∈ poweredOf [⟨1, 1, 1, 3, 1⟩] [] [] (fun p => decide (p = 0)) ∧
          endHole ⟨1, 1, 1, 3, 1⟩ ∈ groundedOf [⟨1, 1, 1, 3, 1⟩] [] []))) :=
  ⟨by decide, by decide,
   c1_active_iff_terminal_in_both [⟨1, 1, 1, 3, 1⟩] [] [] (fun p => decide (p = 0))
     ⟨1, 1, 1, 3, 1⟩ (by decide) (by decide)⟩

/-- C6: adding a wire (in particular one whose endpoints were previously in
    disjoint regions of the graph) can only grow the set of powered-and-
    grounded nodes under the same pin-state vector, never shrink it. -/
theorem c6_added_wire_monotone (wires leds resistors : List Comp) (ps : Nat → Bool)
    (nw : Comp)
    (hdisj : ¬ Reach (builtEdges wires leds resistors) (startHole nw) (endHole nw)) :
    ∀ x ∈ (evaluate wires leds resistors ps).activeNodes,
      x ∈ (evaluate (wires ++ [nw]) leds resistors ps).activeNodes := by
  intro x hx
  have hsub : ∀ c ∈ wires ++ leds ++ resistors, c ∈ (wires ++ [nw]) ++ leds ++ resistors := by
    intro c hc
    simp only [List.mem_append] at hc ⊢
    tauto
  rw [mem_activeNodesOf] at hx ⊢
  obtain ⟨hp, hg⟩ := hx
  constructor
  · rw [mem_poweredOf] at hp ⊢
    obtain ⟨s, hs, hr⟩ := hp
    refine ⟨s, sourcesOf_mono hsub hs, ?_⟩
    exact reach_built_iff_ref.mpr (Reach.mono_edges
      (fun p q hpq => Reach.single (Or.inl (refEdges_mono hpq)))
      (reach_built_iff_ref.mp hr))
  · rw [mem_groundedOf] at hg ⊢
    obtain ⟨s, hs, hr⟩ := hg
    refine ⟨s, sinksOf_mono hsub hs, ?_⟩
    exact reach_built_iff_ref.mpr (Reach.mono_edges
      (fun p q hpq => Reach.single (Or.inl (refEdges_mono hpq)))
      (reach_built_iff_ref.mp hr))

/-- C6 witness: the active circuit {wire (1,1)-(3,1)} with pin 0 high has node
    L-1 powered and grounded; adding the wire (10,3)-(11,3), whose endpoints
    are disconnected from everything (and from each other), keeps L-1 in the
    set. -/
theorem c6_witness :
    getHoleId 1 1 ∈ (evaluate [⟨1, 1, 1, 3, 1⟩] [] [] (fun p => decide (p = 0))).activeNodes ∧
    getHoleId 1 1 ∈
      (evaluate [⟨1, 1, 1, 3, 1⟩, ⟨2, 10, 3, 11, 3⟩] [] [] (fun p => decide (p = 0))).activeNodes :=
  ⟨by decide,
   c6_added_wire_monotone [⟨1, 1, 1, 3, 1⟩] [] [] (fun p => decide (p = 0)) ⟨2, 10, 3, 11, 3⟩
     (by rw [reach_iff_mem_reachSet]; decide)
     (getHoleId 1 1) (by decide)⟩

/-- C3 counterexample: rows 3 and 7 of rail column 0 are electrically one
    conductor (the left positive rail), yet the node-identity function maps
    them to distinct identities; the claimed iff fails at this valid pair. -/
theorem c3_counterexample :
    (1 ≤ 3 ∧ 3 ≤ 30 ∧ 1 ≤ 7 ∧ 7 ≤ 30 ∧ (-1 : Int) ≤ 0 ∧ (0 : Int) ≤ 12) ∧
    sameSegment 3 0 7 0 = true ∧
    getHoleId 3 0 ≠ getHoleId 7 0 := by
  decide

/-- C3 amended: the node-identity function alone distinguishes the rows of a
    rail column; it is the group-key composition (the grouping actually used to
    wire the graph) that identifies two valid coordinates iff they are
    electrically the same connector segment. -/
theorem c3_amended_groupkey_iff_same_segment (r1 r2 : Nat) (c1 c2 : Int)
    (hv1 : 1 ≤ r1 ∧ r1 ≤ 30 ∧ -1 ≤ c1 ∧ c1 ≤ 12)
    (hv2 : 1 ≤ r2 ∧ r2 ≤ 30 ∧ -1 ≤ c2 ∧ c2 ≤ 12) :
    getGroupKey (getHoleId r1 c1) = getGroupKey (getHoleId r2 c2) ↔
      sameSegment r1 c1 r2 c2 = true := by
  obtain ⟨-, -, h1a, h1b⟩ := hv1
  obtain ⟨-, -, h2a, h2b⟩ := hv2
  interval_cases c1 <;> interval_cases c2 <;>
    simp [getHoleId, getGroupKey, sameSegment, isRailCol, sideOfCol]

/-- C3 amended witness: the two rail coordinates of the counterexample, under
    the group-key composition, are identified and are the same segment. -/
theorem c3_amended_witness :
    ((1 ≤ 3 ∧ 3 ≤ 30 ∧ (-1 : Int) ≤ 0 ∧ (0 : Int) ≤ 12) ∧
      (1 ≤ 7 ∧ 7 ≤ 30 ∧ (-1 : Int) ≤ 0 ∧ (0 : Int) ≤ 12)) ∧
    (getGroupKey (getHoleId 3 0) = getGroupKey (getHoleId 7 0) ↔
      sameSegment 3 0 7 0 = true) :=
  ⟨by decide,
   c3_amended_groupkey_iff_same_segment 3 7 0 0 (by decide) (by decide)⟩

theorem getHoleId_main (r : Nat) {c : Int} (h1 : 1 ≤ c) (h2 : c ≤ 10) :
    getHoleId r c = .main (if c ≤ 5 then Side.L else Side.R) r := by
  unfold getHoleId
  iterate 4 rw [if_neg (by omega)]
  by_cases hc5 : c ≤ 5
  · rw [if_pos hc5, if_pos hc5]
  · rw [if_neg hc5, if_neg hc5]

theorem sourcePred_holds {r : Nat} {c : Int} {ps : Nat → Bool} {p : Nat}
    (h1 : 1 ≤ c) (h2 : c ≤ 10) (hpin : getGpioFromHole r c = some p)
    (hps : ps p = true) :
    sourcePred ps (getHoleId r c) = true := by
  by_cases hc5 : c ≤ 5
  · have hrep : getGpioFromHole r 1 = some p := by
      unfold getGpioFromHole at hpin ⊢
      rw [if_neg (by omega), if_pos hc5] at hpin
      rw [if_neg (by decide), if_pos (by decide)]
      exact hpin
    rw [getHoleId_main r h1 h2, if_pos hc5]
    simp [sourcePred, hrep, hps]
  · have hrep : getGpioFromHole r 6 = some p := by
      unfold getGpioFromHole at hpin ⊢
      rw [if_neg (by omega), if_neg hc5] at hpin
      rw [if_neg (by decide), if_neg (by decide)]
      exact hpin
    rw [getHoleId_main r h1 h2, if_neg hc5]
    simp [sourcePred, hrep, hps]

theorem sinkPred_holds {r : Nat} {c : Int}
    (h1 : 1 ≤ c) (h2 : c ≤ 10) (hg : isGroundRow r = true) :
    sinkPred (getHoleId r c) = true := by
  rw [getHoleId_main r h1 h2]
  simp [sinkPred, hg]

theorem series_chain_active (w1 w2 : Comp) (ps : Nat → Bool) (p : Nat)
    (hc1 : 1 ≤ w1.sC ∧ w1.sC ≤ 10)
    (hpin : getGpioFromHole w1.sR w1.sC = some p)
    (hps : ps p = true)
    (hshared : getGroupKey (endHole w1) = getGroupKey (startHole w2))
    (hc3 : 1 ≤ w2.eC ∧ w2.eC ≤ 10)
    (hgnd : isGroundRow w2.eR = true) :
    w1.id ∈ (evaluate [w1, w2] [] [] ps).activeIds ∧
    w2.id ∈ (evaluate [w1, w2] [] [] ps).activeIds := by
  have happ : ([w1, w2] : List Comp) ++ [] ++ [] = [w1, w2] := by simp
  have hu1s : startHole w1 ∈ usedHoles [w1, w2] :=
    mem_usedHoles.mpr ⟨w1, by simp, Or.inl rfl⟩
  have hu1e : endHole w1 ∈ usedHoles [w1, w2] :=
    mem_usedHoles.mpr ⟨w1, by simp, Or.inr rfl⟩
  have hu2s : startHole w2 ∈ usedHoles [w1, w2] :=
    mem_usedHoles.mpr ⟨w2, by simp, Or.inl rfl⟩
  have hu2e : endHole w2 ∈ usedHoles [w1, w2] :=
    mem_usedHoles.mpr ⟨w2, by simp, Or.inr rfl⟩
  have hsrc : startHole w1 ∈ sourcesOf ([w1, w2] ++ [] ++ []) ps := by
    rw [happ, sourcesOf, List.mem_filter]
    exact ⟨hu1s, sourcePred_holds hc1.1 hc1.2 hpin hps⟩
  have hsnk : endHole w2 ∈ sinksOf ([w1, w2] ++ [] ++ []) := by
    rw [happ, sinksOf, List.mem_filter]
    exact ⟨hu2e, sinkPred_holds hc3.1 hc3.2 hgnd⟩
  have he1 : (startHole w1, endHole w1) ∈ refEdges [w1, w2] [] [] := by
    unfold refEdges
    rw [List.mem_append]
    left
    rw [happ, mem_compEdges]
    exact ⟨w1, by simp, rfl⟩
  have he2 : (startHole w2, endHole w2) ∈ refEdges [w1, w2] [] [] := by
    unfold refEdges
    rw [List.mem_append]
    left
    rw [happ, mem_compEdges]
    exact ⟨w2, by simp, rfl⟩
  have he3 : (endHole w1, startHole w2) ∈ refEdges [w1, w2] [] [] := by
    unfold refEdges
    rw [List.mem_append]
    right
    rw [happ, mem_cliqueEdges]
    exact ⟨hu1e, hu2s, hshared⟩
  have r12 : Reach (refEdges [w1, w2] [] []) (startHole w1) (endHole w1) :=
    Reach.single (Or.inl he1)
  have r23 : Reach (refEdges [w1, w2] [] []) (endHole w1) (startHole w2) :=
    Reach.single (Or.inl he3)
  have r34 : Reach (refEdges [w1, w2] [] []) (startHole w2) (endHole w2) :=
    Reach.single (Or.inl he2)
  have rall : Reach (refEdges [w1, w2] [] []) (startHole w1) (endHole w2) :=
    (r12.trans r23).trans r34
  have hpow : ∀ z : HoleId, Reach (refEdges [w1, w2] [] []) (startHole w1) z →
      z ∈ poweredOf [w1, w2] [] [] ps := fun z hz =>
    mem_poweredOf.mpr ⟨startHole w1, hsrc, reach_built_iff_ref.mpr hz⟩
  have hgnded : ∀ z : HoleId, Reach (refEdges [w1, w2] [] []) (endHole w2) z →
      z ∈ groundedOf [w1, w2] [] [] := fun z hz =>
    mem_groundedOf.mpr ⟨endHole w2, hsnk, reach_built_iff_ref.mpr hz⟩
  have hp1 : startHole w1 ∈ poweredOf [w1, w2] [] [] ps := hpow _ (Reach.refl _)
  have hg1 : startHole w1 ∈ groundedOf [w1, w2] [] [] := hgnded _ rall.symm
  have hp4 : endHole w2 ∈ poweredOf [w1, w2] [] [] ps := hpow _ rall
  have hg4 : endHole w2 ∈ groundedOf [w1, w2] [] [] := hgnded _ (Reach.refl _)
  have hch1 : checkB (poweredOf [w1, w2] [] [] ps) (groundedOf [w1, w2] [] []) w1 = true := by
    simp only [checkB, Bool.or_eq_true, Bool.and_eq_true, decide_eq_true_eq]
    exact Or.inl ⟨hp1, hg1⟩
  have hch2 : checkB (poweredOf [w1, w2] [] [] ps) (groundedOf [w1, w2] [] []) w2 = true := by
    simp only [checkB, Bool.or_eq_true, Bool.and_eq_true, decide_eq_true_eq]
    exact Or.inr ⟨hp4, hg4⟩
  constructor
  · show w1.id ∈ activeIdsOf [w1, w2] [] [] ps
    unfold activeIdsOf
    rw [List.mem_map]
    exact ⟨w1, List.mem_filter.mpr ⟨by simp, hch1⟩, rfl⟩
  · show w2.id ∈ activeIdsOf [w1, w2] [] [] ps
    unfold activeIdsOf
    rw [List.mem_map]
    exact ⟨w2, List.mem_filter.mpr ⟨by simp, hch2⟩, rfl⟩

/-- C7: for every two-wire configuration where wire1 runs from a driven-high
    pin's coordinate to an intermediate node and wire2 runs from that same
    intermediate node to a main-grid hole on a ground row, evaluation with the
    pin high classifies both wires as active (series chain through the shared
    node). -/
theorem c7_series_chain (id1 id2 : Nat) (r1 r2 r2x r3 : Nat) (c1 c2 c2x c3 : Int)
    (ps : Nat → Bool) (p : Nat)
    (hc1 : 1 ≤ c1 ∧ c1 ≤ 10)
    (hpin : getGpioFromHole r1 c1 = some p)
    (hps : ps p = true)
    (hshared : getGroupKey (getHoleId r2 c2) = getGroupKey (getHoleId r2x c2x))
    (hc3 : 1 ≤ c3 ∧ c3 ≤ 10)
    (hgnd : isGroundRow r3 = true) :
    id1 ∈ (evaluate [⟨id1, r1, c1, r2, c2⟩, ⟨id2, r2x, c2x, r3, c3⟩] [] [] ps).activeIds ∧
    id2 ∈ (evaluate [⟨id1, r1, c1, r2, c2⟩, ⟨id2, r2x, c2x, r3, c3⟩] [] [] ps).activeIds :=
  series_chain_active ⟨id1, r1, c1, r2, c2⟩ ⟨id2, r2x, c2x, r3, c3⟩ ps p
    hc1 hpin hps hshared hc3 hgnd

/-- C7 witness: wire1 (1,1)-(5,2), wire2 (5,3)-(3,4), pin 0 driven high; the
    shared intermediate node is row 5 on the left side, and row 3 is a ground
    row. -/
theorem c7_witness :
    (((1 : Int) ≤ 1 ∧ (1 : Int) ≤ 10) ∧
      getGpioFromHole 1 1 = some 0 ∧
      (fun q => decide (q = 0)) 0 = true ∧
      getGroupKey (getHoleId 5 2) = getGroupKey (getHoleId 5 3) ∧
      ((1 : Int) ≤ 4 ∧ (4 : Int) ≤ 10) ∧
      isGroundRow 3 = true) ∧
    1 ∈ (evaluate [⟨1, 1, 1, 5, 2⟩, ⟨2, 5, 3, 3, 4⟩] [] [] (fun q => decide (q = 0))).activeIds ∧
    2 ∈ (evaluate [⟨1, 1, 1, 5, 2⟩, ⟨2, 5, 3, 3, 4⟩] [] [] (fun q => decide (q = 0))).activeIds := by
  refine ⟨by decide, ?_⟩
  exact c7_series_chain 1 2 1 5 5 3 1 2 3 4 (fun q => decide (q = 0)) 0
    (by decide) (by decide) (by decide) (by decide) (by decide) (by decide)
